import Mathlib

/-!
Verification of the spatial-weights / ESDA specification of the `asa`
course repository.  The notebooks call library routines for adjacency
construction, weight normalization, spatial lag, and autocorrelation
statistics; the routines themselves are not part of the repository, so
their behaviour is modelled here from the specification's contracts,
while the geocoding batch and the data-download helper are embedded
directly from the notebook source.
-/

namespace Asa

/-! ## Weight normalization (spec section 4.2) -/

/-- Modelled from the spec: row-standardization of one unit's outgoing
weights ("each unit's weights divided by that unit's weight sum").  For an
island the weight sum is zero and the operation is a defined error
condition (`none`), not a silent division producing NaN. -/
def standardizeRow (r : List ℚ) : Option (List ℚ) :=
  if r.sum = 0 then none else some (r.map (fun w => w / r.sum))

/-- Modelled from the spec: row-standardize every unit's weights; an island
row surfaces the error to the caller instead of being silently skipped. -/
def rowStandardize : List (List ℚ) → Option (List (List ℚ))
  | [] => some []
  | r :: w =>
    match standardizeRow r, rowStandardize w with
    | some r', some w' => some (r' :: w')
    | _, _ => none

theorem standardizeRow_of_pos (r : List ℚ) (hpos : ∀ x ∈ r, 0 < x)
    (hne : r ≠ []) :
    ∃ r', standardizeRow r = some r' ∧ r'.sum = 1 := by
  have hsum : 0 < r.sum := List.sum_pos r hpos hne
  refine ⟨r.map (fun w => w / r.sum), ?_, ?_⟩
  · simp [standardizeRow, hsum.ne']
  · have : (r.map (fun w => w / r.sum)).sum = r.sum / r.sum := by
      simp [div_eq_mul_inv, List.sum_map_mul_right]
    rw [this, div_self hsum.ne']

/-- C1: after row-standardization every unit with at least one neighbor has
outgoing weights summing to exactly 1, and a weights matrix containing an
island (zero-neighbor unit) makes row-standardization a defined error
condition (`none`) rather than a silent division. -/
theorem c1_row_standardized_sums_to_one (w : List (List ℚ))
    (hpos : ∀ r ∈ w, ∀ x ∈ r, 0 < x) :
    ((∀ r ∈ w, r ≠ []) →
      ∃ w', rowStandardize w = some w' ∧ ∀ r' ∈ w', r'.sum = 1) ∧
    ((∃ r ∈ w, r = []) → rowStandardize w = none) := by
  induction w with
  | nil =>
    refine ⟨fun _ => ⟨[], rfl, by simp⟩, fun h => ?_⟩
    rcases h with ⟨r, hr, _⟩
    exact absurd hr (List.not_mem_nil r)
  | cons r w ih =>
    have hposr : ∀ x ∈ r, 0 < x := hpos r (List.mem_cons_self r w)
    have hposw : ∀ s ∈ w, ∀ x ∈ s, 0 < x :=
      fun s hs => hpos s (List.mem_cons_of_mem r hs)
    obtain ⟨ih1, ih2⟩ := ih hposw
    constructor
    · intro hne
      have hner : r ≠ [] := hne r (List.mem_cons_self r w)
      have hnew : ∀ s ∈ w, s ≠ [] :=
        fun s hs => hne s (List.mem_cons_of_mem r hs)
      obtain ⟨r', hr', hrsum⟩ := standardizeRow_of_pos r hposr hner
      obtain ⟨w', hw', hwsum⟩ := ih1 hnew
      refine ⟨r' :: w', ?_, ?_⟩
      · simp [rowStandardize, hr', hw']
      · intro s hs
        rcases List.mem_cons.mp hs with h | h
        · exact h ▸ hrsum
        · exact hwsum s h
    · intro hisl
      rcases hisl with ⟨s, hs, hsnil⟩
      rcases List.mem_cons.mp hs with h | h
      · have hr : r = [] := h.symm.trans hsnil
        have : standardizeRow r = none := by simp [hr, standardizeRow]
        simp [rowStandardize, this]
      · have : rowStandardize w = none := ih2 ⟨s, h, hsnil⟩
        cases hsr : standardizeRow r <;> simp [rowStandardize, hsr, this]

/-- Witness for C1 at the concrete matrix [[1,1],[2]]. -/
theorem c1_row_standardized_sums_to_one_witness :
    ∃ w', rowStandardize [[(1 : ℚ), 1], [2]] = some w' ∧
      ∀ r' ∈ w', r'.sum = 1 :=
  (c1_row_standardized_sums_to_one [[(1 : ℚ), 1], [2]] (by decide)).1 (by decide)

/-! ## Permutation-test p-value (spec section 4.4) -/

/-- Modelled from the spec: how many reference statistics are at least as
extreme as (here: at least as large as) the observed one. -/
def countExtreme (obs : ℚ) (sims : List ℚ) : Nat :=
  (sims.filter (fun s => obs ≤ s)).length

/-- Modelled from the spec: the simulated p-value of the permutation test:
(number of extreme permuted statistics + 1) / (permutations + 1), the
"+1" counting the observed statistic itself among the reference draws. -/
def pSim (obs : ℚ) (sims : List ℚ) : ℚ :=
  ((countExtreme obs sims : ℚ) + 1) / ((sims.length : ℚ) + 1)

/-- C3: with the default 999+1 permutations the simulated p-value is the
proportion of reference draws at least as extreme as the observed statistic,
where the observed statistic itself counts as one of the reference draws
(so the denominator is 1000). -/
theorem c3_p_sim_observed_is_a_draw (obs : ℚ) (sims : List ℚ)
    (h : sims.length = 999) :
    pSim obs sims =
      (countExtreme obs (obs :: sims) : ℚ) / ((obs :: sims).length : ℚ) ∧
    ((obs :: sims).length : ℚ) = 1000 := by
  have hcnt : countExtreme obs (obs :: sims) = countExtreme obs sims + 1 := by
    simp [countExtreme, List.filter_cons]
  constructor
  · rw [hcnt]
    simp [pSim, h]
    norm_num
  · simp [h]

/-- Witness for C3 with a concrete list of 999 permuted statistics. -/
theorem c3_p_sim_observed_is_a_draw_witness :
    (List.replicate 999 (0 : ℚ)).length = 999 ∧
    pSim 0 (List.replicate 999 (0 : ℚ)) =
      (countExtreme 0 (0 :: List.replicate 999 (0 : ℚ)) : ℚ) /
        ((0 :: List.replicate 999 (0 : ℚ)).length : ℚ) :=
  ⟨List.length_replicate 999 0,
    (c3_p_sim_observed_is_a_draw 0 _ (List.length_replicate 999 0)).1⟩

/-! ## Local-statistic quadrant classification (spec section 4.5) -/

inductive Quadrant
  | HH
  | LH
  | LL
  | HL
deriving DecidableEq

/-- Modelled from the spec: local-statistic classification of a unit by the
signs of its standardized value and its standardized spatial lag. -/
def classifyQuadrant (z lagz : ℚ) : Quadrant :=
  if 0 < z then (if 0 < lagz then .HH else .HL)
  else (if 0 < lagz then .LH else .LL)

/-- C4: both standardized value and standardized lag positive yields the
high-high label, both negative yields low-low, and opposite signs yield one
of the two outlier labels (high-low or low-high). -/
theorem c4_quadrant_labels (z lagz : ℚ) :
    (0 < z → 0 < lagz → classifyQuadrant z lagz = .HH) ∧
    (z < 0 → lagz < 0 → classifyQuadrant z lagz = .LL) ∧
    (0 < z → lagz < 0 → classifyQuadrant z lagz = .HL) ∧
    (z < 0 → 0 < lagz → classifyQuadrant z lagz = .LH) := by
  refine ⟨fun h1 h2 => ?_, fun h1 h2 => ?_, fun h1 h2 => ?_, fun h1 h2 => ?_⟩
  · simp [classifyQuadrant, h1, h2]
  · simp [classifyQuadrant, lt_asymm h1, lt_asymm h2]
  · simp [classifyQuadrant, h1, lt_asymm h2]
  · simp [classifyQuadrant, lt_asymm h1, h2]

/-- Witness for C4: a unit with positive standardized value and negative
standardized lag is labeled high-low. -/
theorem c4_quadrant_labels_witness :
    0 < (1 : ℚ) ∧ (-1 : ℚ) < 0 ∧ classifyQuadrant 1 (-1) = Quadrant.HL :=
  ⟨by norm_num, by norm_num,
    (c4_quadrant_labels 1 (-1)).2.2.1 (by norm_num) (by norm_num)⟩

/-! ## Spatial lag with missing values (spec sections 4.3 and 7) -/

/-- Option-valued traversal of a list: `none` as soon as any element maps to
`none`, mirroring propagation of a missing value through a weighted sum. -/
def traverseOption (f : α → Option β) : List α → Option (List β)
  | [] => some []
  | a :: l =>
    match f a, traverseOption f l with
    | some b, some bs => some (b :: bs)
    | _, _ => none

/-- Modelled from the spec: the spatial lag of one unit, its row of
(neighbor, weight) pairs and the possibly-missing attribute values given;
a unit with no neighbors, or with a neighbor whose value is missing, gets a
missing lag, never zero. -/
def lagUnit (row : List (Nat × ℚ)) (y : Nat → Option ℚ) : Option ℚ :=
  if row.isEmpty then none
  else (traverseOption (fun p => (y p.1).map (fun v => p.2 * v)) row).map List.sum

theorem traverseOption_eq_none_of_mem (f : α → Option β) (l : List α)
    (h : ∃ a ∈ l, f a = none) : traverseOption f l = none := by
  induction l with
  | nil =>
    rcases h with ⟨a, ha, _⟩
    exact absurd ha (List.not_mem_nil a)
  | cons b l ih =>
    rcases h with ⟨a, ha, hfa⟩
    rcases List.mem_cons.mp ha with h1 | h1
    · rw [h1] at hfa
      simp [traverseOption, hfa]
    · have : traverseOption f l = none := ih ⟨a, h1, hfa⟩
      cases hfb : f b <;> simp [traverseOption, hfb, this]

/-- C5: the lag operator produces a missing lag value, never zero, for every
unit with no neighbors or with at least one neighbor whose attribute value
is missing. -/
theorem c5_lag_missing_not_zero (row : List (Nat × ℚ)) (y : Nat → Option ℚ)
    (h : row = [] ∨ ∃ p ∈ row, y p.1 = none) :
    lagUnit row y = none ∧ ∀ q : ℚ, lagUnit row y ≠ some q := by
  have hnone : lagUnit row y = none := by
    rcases h with h | h
    · simp [lagUnit, h]
    · have : traverseOption (fun p : Nat × ℚ => (y p.1).map (fun v => p.2 * v))
          row = none := by
        apply traverseOption_eq_none_of_mem
        rcases h with ⟨p, hp, hyp⟩
        exact ⟨p, hp, by simp [hyp]⟩
      simp [lagUnit, this]
  exact ⟨hnone, fun q hq => by rw [hnone] at hq; exact Option.noConfusion hq⟩

/-- Witness for C5: a one-neighbor unit whose neighbor's value is missing. -/
theorem c5_lag_missing_not_zero_witness :
    lagUnit [((0 : Nat), (1 : ℚ))] (fun _ => none) = none ∧
    lagUnit [((0 : Nat), (1 : ℚ))] (fun _ => none) ≠ some 0 := by
  have h := c5_lag_missing_not_zero [((0 : Nat), (1 : ℚ))] (fun _ => none)
    (Or.inr ⟨(0, 1), List.mem_cons_self _ _, rfl⟩)
  exact ⟨h.1, h.2 0⟩

/-! ## Transformation modes and reversion (spec section 4.2, notebook O/B/R/V) -/

inductive TransformMode
  | O
  | B
  | R
  | V
deriving DecidableEq

/-- Modelled from the spec / notebook: computing the transformed weights
from the original raw weights: O restores the original state, B makes every
weight 1, R row-standardizes, V rescales so the total of all weights equals
the number of units. -/
def applyTransform (m : TransformMode) (orig : List (List (Nat × ℚ))) :
    List (List (Nat × ℚ)) :=
  match m with
  | .O => orig
  | .B => orig.map (fun row => row.map (fun p => (p.1, 1)))
  | .R => orig.map (fun row =>
      let s := (row.map (fun p => p.2)).sum
      if s = 0 then row else row.map (fun p => (p.1, p.2 / s)))
  | .V =>
    let total := (orig.map (fun row => (row.map (fun p => p.2)).sum)).sum
    if total = 0 then orig
    else orig.map (fun row =>
      row.map (fun p => (p.1, p.2 * (orig.length : ℚ) / total)))

/-- A weights matrix: the stored original raw weights, the current
(possibly transformed) weights, and the current transformation mode. -/
structure WeightsMatrix where
  original : List (List (Nat × ℚ))
  current : List (List (Nat × ℚ))
  mode : TransformMode

/-- Modelled from the spec: setting a transformation mode recomputes the
current weights from the stored original raw weights. -/
def setTransform (m : TransformMode) (w : WeightsMatrix) : WeightsMatrix :=
  ⟨w.original, applyTransform m w.original, m⟩

/-- The spatial lag of an attribute vector under the matrix's current
weights (no missing values). -/
def lagSpatial (w : WeightsMatrix) (y : Nat → ℚ) : List ℚ :=
  w.current.map (fun row => (row.map (fun p => p.2 * y p.1)).sum)

/-- C6: reapplying the same transformation mode is idempotent, and switching
the mode and then back to the original mode reproduces the original raw
weights and hence the original lag values exactly. -/
theorem c6_transform_idempotent_revert (w : WeightsMatrix) (m : TransformMode)
    (y : Nat → ℚ) (h : w.current = w.original) :
    setTransform m (setTransform m w) = setTransform m w ∧
    (setTransform .O (setTransform m w)).current = w.original ∧
    lagSpatial (setTransform .O (setTransform m w)) y = lagSpatial w y := by
  refine ⟨rfl, rfl, ?_⟩
  simp [lagSpatial, setTransform, applyTransform, h]

/-- Witness for C6 at a concrete one-unit weights matrix in original state. -/
theorem c6_transform_idempotent_revert_witness :
    (WeightsMatrix.mk [[(0, (2 : ℚ))]] [[(0, (2 : ℚ))]] .O).current =
      (WeightsMatrix.mk [[(0, (2 : ℚ))]] [[(0, (2 : ℚ))]] .O).original ∧
    lagSpatial (setTransform .O (setTransform .R
        (WeightsMatrix.mk [[(0, (2 : ℚ))]] [[(0, (2 : ℚ))]] .O))) (fun _ => 1) =
      lagSpatial (WeightsMatrix.mk [[(0, (2 : ℚ))]] [[(0, (2 : ℚ))]] .O)
        (fun _ => 1) :=
  ⟨rfl, (c6_transform_idempotent_revert _ .R (fun _ => 1) rfl).2.2⟩

/-! ## Contiguity neighbors on a grid of unit squares (spec section 4.1)

The adjacency builder is exercised in the spec's end-to-end scenario on a
grid of axis-aligned unit squares, so the contiguity relation is embedded
on grid cells: a cell is the lower-left integer corner of a closed unit
square in the rational plane. -/

/-- A grid cell: the lower-left corner of an axis-aligned unit square. -/
abbrev Cell := ℤ × ℤ

/-- The closed unit square of a cell, as a set of rational points. -/
def square (c : Cell) : Set (ℚ × ℚ) :=
  {p | (c.1 : ℚ) ≤ p.1 ∧ p.1 ≤ (c.1 : ℚ) + 1 ∧
       (c.2 : ℚ) ≤ p.2 ∧ p.2 ≤ (c.2 : ℚ) + 1}

/-- The boundary of a cell's unit square: points of the square lying on one
of its four edges. -/
def bdry (c : Cell) : Set (ℚ × ℚ) :=
  {p | p ∈ square c ∧
       (p.1 = (c.1 : ℚ) ∨ p.1 = (c.1 : ℚ) + 1 ∨
        p.2 = (c.2 : ℚ) ∨ p.2 = (c.2 : ℚ) + 1)}

/-- The boundaries of two cells share at least one point. -/
def sharesBoundaryPoint (u v : Cell) : Prop :=
  ∃ p, p ∈ bdry u ∧ p ∈ bdry v

/-- The boundaries of two cells intersect in more than a single point
(for unit squares: they share a line segment). -/
def sharesBoundarySegment (u v : Cell) : Prop :=
  ∃ p q, p ≠ q ∧ (p ∈ bdry u ∧ p ∈ bdry v) ∧ (q ∈ bdry u ∧ q ∈ bdry v)

/-- Modelled from the spec / notebook ("two spatial units need only share a
vertex (a single point) of their boundaries"): the queen-contiguity builder
on grid cells relates distinct cells within Chebyshev distance 1. -/
def queenNeighbor (u v : Cell) : Prop :=
  u ≠ v ∧ (u.1 - v.1).natAbs ≤ 1 ∧ (u.2 - v.2).natAbs ≤ 1

/-- Modelled from the spec / notebook ("two spatial units must share an
edge"): the rook-contiguity builder on grid cells relates cells at
Manhattan distance exactly 1. -/
def rookNeighbor (u v : Cell) : Prop :=
  (u.1 - v.1).natAbs + (u.2 - v.2).natAbs = 1

instance (u v : Cell) : Decidable (queenNeighbor u v) := by
  unfold queenNeighbor
  infer_instance

instance (u v : Cell) : Decidable (rookNeighbor u v) := by
  unfold rookNeighbor
  infer_instance

theorem mem_bdry_mk (c : Cell) (x y : ℚ) (h1 : (c.1 : ℚ) ≤ x)
    (h2 : x ≤ (c.1 : ℚ) + 1) (h3 : (c.2 : ℚ) ≤ y) (h4 : y ≤ (c.2 : ℚ) + 1)
    (h5 : x = (c.1 : ℚ) ∨ x = (c.1 : ℚ) + 1 ∨ y = (c.2 : ℚ) ∨
      y = (c.2 : ℚ) + 1) : (x, y) ∈ bdry c :=
  ⟨⟨h1, h2, h3, h4⟩, h5⟩

theorem int_cast_max_eq_or (a b : ℤ) (h : b ≤ a + 1) :
    ((max a b : ℤ) : ℚ) = (a : ℚ) ∨ ((max a b : ℤ) : ℚ) = (a : ℚ) + 1 := by
  have : max a b = a ∨ max a b = a + 1 := by omega
  rcases this with h' | h'
  · exact Or.inl (by exact_mod_cast congrArg (fun z : ℤ => (z : ℚ)) h')
  · refine Or.inr ?_
    rw [h']
    push_cast
    ring

theorem sharesBoundaryPoint_iff (u v : Cell) :
    sharesBoundaryPoint u v ↔
      (u.1 - v.1).natAbs ≤ 1 ∧ (u.2 - v.2).natAbs ≤ 1 := by
  constructor
  · rintro ⟨p, ⟨⟨hu1, hu2, hu3, hu4⟩, -⟩, ⟨⟨hv1, hv2, hv3, hv4⟩, -⟩⟩
    constructor
    · have h1 : (u.1 : ℚ) - v.1 ≤ 1 := by linarith
      have h2 : (v.1 : ℚ) - u.1 ≤ 1 := by linarith
      have h1' : u.1 - v.1 ≤ 1 := by exact_mod_cast h1
      have h2' : v.1 - u.1 ≤ 1 := by exact_mod_cast h2
      omega
    · have h1 : (u.2 : ℚ) - v.2 ≤ 1 := by linarith
      have h2 : (v.2 : ℚ) - u.2 ≤ 1 := by linarith
      have h1' : u.2 - v.2 ≤ 1 := by exact_mod_cast h1
      have h2' : v.2 - u.2 ≤ 1 := by exact_mod_cast h2
      omega
  · rintro ⟨hx, hy⟩
    have hxu : ((max u.1 v.1 : ℤ) : ℚ) = (u.1 : ℚ) ∨
        ((max u.1 v.1 : ℤ) : ℚ) = (u.1 : ℚ) + 1 :=
      int_cast_max_eq_or u.1 v.1 (by omega)
    have hyu : ((max u.2 v.2 : ℤ) : ℚ) = (u.2 : ℚ) ∨
        ((max u.2 v.2 : ℤ) : ℚ) = (u.2 : ℚ) + 1 :=
      int_cast_max_eq_or u.2 v.2 (by omega)
    have hxv : ((max u.1 v.1 : ℤ) : ℚ) = (v.1 : ℚ) ∨
        ((max u.1 v.1 : ℤ) : ℚ) = (v.1 : ℚ) + 1 := by
      rw [max_comm]
      exact int_cast_max_eq_or v.1 u.1 (by omega)
    have hyv : ((max u.2 v.2 : ℤ) : ℚ) = (v.2 : ℚ) ∨
        ((max u.2 v.2 : ℤ) : ℚ) = (v.2 : ℚ) + 1 := by
      rw [max_comm]
      exact int_cast_max_eq_or v.2 u.2 (by omega)
    refine ⟨(((max u.1 v.1 : ℤ) : ℚ), ((max u.2 v.2 : ℤ) : ℚ)),
      mem_bdry_mk u _ _ ?_ ?_ ?_ ?_ (Or.elim hxu Or.inl
        (fun h => Or.inr (Or.inl h))),
      mem_bdry_mk v _ _ ?_ ?_ ?_ ?_ (Or.elim hxv Or.inl
        (fun h => Or.inr (Or.inl h)))⟩
    · exact_mod_cast le_max_left u.1 v.1
    · rcases hxu with h | h <;> linarith [h.le, h.ge]
    · exact_mod_cast le_max_left u.2 v.2
    · rcases hyu with h | h <;> linarith [h.le, h.ge]
    · exact_mod_cast le_max_right u.1 v.1
    · rcases hxv with h | h <;> linarith [h.le, h.ge]
    · exact_mod_cast le_max_right u.2 v.2
    · rcases hyv with h | h <;> linarith [h.le, h.ge]

theorem sharesBoundarySegment_symm (u v : Cell)
    (h : sharesBoundarySegment u v) : sharesBoundarySegment v u := by
  rcases h with ⟨p, q, hpq, ⟨h1, h2⟩, ⟨h3, h4⟩⟩
  exact ⟨p, q, hpq, ⟨h2, h1⟩, ⟨h4, h3⟩⟩

/-- Coordinate transposition of a point. -/
def pswap (p : ℚ × ℚ) : ℚ × ℚ := (p.2, p.1)

/-- Coordinate transposition of a cell. -/
def cswap (c : Cell) : Cell := (c.2, c.1)

theorem mem_bdry_swap (c : Cell) (p : ℚ × ℚ) (h : p ∈ bdry c) :
    pswap p ∈ bdry (cswap c) := by
  obtain ⟨⟨h1, h2, h3, h4⟩, h5⟩ := h
  exact ⟨⟨h3, h4, h1, h2⟩, by tauto⟩

theorem pswap_ne (p q : ℚ × ℚ) (h : p ≠ q) : pswap p ≠ pswap q := by
  intro hc
  exact h (Prod.ext (congrArg Prod.snd hc) (congrArg Prod.fst hc))

theorem sharesBoundarySegment_swap (u v : Cell)
    (h : sharesBoundarySegment (cswap u) (cswap v)) :
    sharesBoundarySegment u v := by
  rcases h with ⟨p, q, hpq, ⟨h1, h2⟩, ⟨h3, h4⟩⟩
  refine ⟨pswap p, pswap q, pswap_ne p q hpq,
    ⟨mem_bdry_swap (cswap u) p h1, mem_bdry_swap (cswap v) p h2⟩,
    ⟨mem_bdry_swap (cswap u) q h3, mem_bdry_swap (cswap v) q h4⟩⟩

theorem segment_of_right (u v : Cell) (h1 : v.1 = u.1 + 1) (h2 : v.2 = u.2) :
    sharesBoundarySegment u v := by
  have hc1 : (v.1 : ℚ) = (u.1 : ℚ) + 1 := by exact_mod_cast h1
  have hc2 : (v.2 : ℚ) = (u.2 : ℚ) := by exact_mod_cast h2
  refine ⟨((v.1 : ℚ), (v.2 : ℚ)), ((v.1 : ℚ), (v.2 : ℚ) + 1), ?_, ⟨?_, ?_⟩,
    ⟨?_, ?_⟩⟩
  · intro hc
    have := congrArg Prod.snd hc
    simp at this
  · exact mem_bdry_mk u _ _ (by linarith) (by linarith) (by linarith)
      (by linarith) (Or.inr (Or.inl (by linarith)))
  · exact mem_bdry_mk v _ _ (by linarith) (by linarith) (by linarith)
      (by linarith) (Or.inl rfl)
  · exact mem_bdry_mk u _ _ (by linarith) (by linarith) (by linarith)
      (by linarith) (Or.inr (Or.inl (by linarith)))
  · exact mem_bdry_mk v _ _ (by linarith) (by linarith) (by linarith)
      (by linarith) (Or.inl rfl)

theorem segment_of_eq (u v : Cell) (h1 : u.1 = v.1) (h2 : u.2 = v.2) :
    sharesBoundarySegment u v := by
  have hc1 : (u.1 : ℚ) = (v.1 : ℚ) := by exact_mod_cast h1
  have hc2 : (u.2 : ℚ) = (v.2 : ℚ) := by exact_mod_cast h2
  refine ⟨((u.1 : ℚ), (u.2 : ℚ)), ((u.1 : ℚ), (u.2 : ℚ) + 1), ?_, ⟨?_, ?_⟩,
    ⟨?_, ?_⟩⟩
  · intro hc
    have := congrArg Prod.snd hc
    simp at this
  · exact mem_bdry_mk u _ _ (by linarith) (by linarith) (by linarith)
      (by linarith) (Or.inl rfl)
  · exact mem_bdry_mk v _ _ (by linarith) (by linarith) (by linarith)
      (by linarith) (Or.inl (by linarith))
  · exact mem_bdry_mk u _ _ (by linarith) (by linarith) (by linarith)
      (by linarith) (Or.inl rfl)
  · exact mem_bdry_mk v _ _ (by linarith) (by linarith) (by linarith)
      (by linarith) (Or.inl (by linarith))

theorem sharesBoundarySegment_iff (u v : Cell) :
    sharesBoundarySegment u v ↔
      (u.1 - v.1).natAbs ≤ 1 ∧ (u.2 - v.2).natAbs ≤ 1 ∧
      ¬((u.1 - v.1).natAbs = 1 ∧ (u.2 - v.2).natAbs = 1) := by
  constructor
  · rintro ⟨p, q, hpq, ⟨hpu, hpv⟩, ⟨hqu, hqv⟩⟩
    have hcheb : (u.1 - v.1).natAbs ≤ 1 ∧ (u.2 - v.2).natAbs ≤ 1 :=
      (sharesBoundaryPoint_iff u v).mp ⟨p, hpu, hpv⟩
    refine ⟨hcheb.1, hcheb.2, ?_⟩
    rintro ⟨hdx, hdy⟩
    obtain ⟨⟨hpu1, hpu2, hpu3, hpu4⟩, -⟩ := hpu
    obtain ⟨⟨hpv1, hpv2, hpv3, hpv4⟩, -⟩ := hpv
    obtain ⟨⟨hqu1, hqu2, hqu3, hqu4⟩, -⟩ := hqu
    obtain ⟨⟨hqv1, hqv2, hqv3, hqv4⟩, -⟩ := hqv
    apply hpq
    have hx : u.1 = v.1 + 1 ∨ v.1 = u.1 + 1 := by omega
    have hy : u.2 = v.2 + 1 ∨ v.2 = u.2 + 1 := by omega
    have hx1 : p.1 = q.1 := by
      rcases hx with h | h
      · have hc : (u.1 : ℚ) = (v.1 : ℚ) + 1 := by exact_mod_cast h
        linarith
      · have hc : (v.1 : ℚ) = (u.1 : ℚ) + 1 := by exact_mod_cast h
        linarith
    have hy1 : p.2 = q.2 := by
      rcases hy with h | h
      · have hc : (u.2 : ℚ) = (v.2 : ℚ) + 1 := by exact_mod_cast h
        linarith
      · have hc : (v.2 : ℚ) = (u.2 : ℚ) + 1 := by exact_mod_cast h
        linarith
    exact Prod.ext hx1 hy1
  · rintro ⟨hx, hy, hnd⟩
    have hcase : ((u.1 - v.1).natAbs = 1 ∧ u.2 = v.2) ∨
        ((u.2 - v.2).natAbs = 1 ∧ u.1 = v.1) ∨ (u.1 = v.1 ∧ u.2 = v.2) := by
      omega
    rcases hcase with ⟨hdx, hyeq⟩ | ⟨hdy, hxeq⟩ | ⟨hxeq, hyeq⟩
    · have : v.1 = u.1 + 1 ∨ u.1 = v.1 + 1 := by omega
      rcases this with h | h
      · exact segment_of_right u v h hyeq.symm
      · exact sharesBoundarySegment_symm v u (segment_of_right v u h hyeq)
    · apply sharesBoundarySegment_swap
      have : (cswap v).1 = (cswap u).1 + 1 ∨ (cswap u).1 = (cswap v).1 + 1 := by
        simp only [cswap]
        omega
      rcases this with h | h
      · exact segment_of_right (cswap u) (cswap v) h (by simp [cswap, hxeq])
      · exact sharesBoundarySegment_symm (cswap v) (cswap u)
          (segment_of_right (cswap v) (cswap u) h (by simp [cswap, hxeq]))
    · exact segment_of_eq u v hxeq hyeq

/-- C2 counterexample: the diagonal cells (0,0) and (1,1) are queen
neighbors (they share the single corner point (1,1)) although their
boundaries do not intersect in more than a single point, so queen
contiguity is not characterized by "boundaries intersect in more than a
single point". -/
theorem c2_counterexample_diagonal_queen :
    queenNeighbor (0, 0) (1, 1) ∧ sharesBoundaryPoint (0, 0) (1, 1) ∧
    ¬sharesBoundarySegment (0, 0) (1, 1) := by
  refine ⟨by decide, ?_, ?_⟩
  · exact (sharesBoundaryPoint_iff (0, 0) (1, 1)).mpr (by decide)
  · intro h
    have := (sharesBoundarySegment_iff (0, 0) (1, 1)).mp h
    revert this
    decide

/-- C2 amended: two cells are queen neighbors exactly when they are distinct
and their boundaries intersect in at least one point; they are rook
neighbors exactly when they are distinct and their boundaries intersect in
more than a single point (a shared line segment); rook is the stricter of
the two relations. -/
theorem c2_contiguity_characterization (u v : Cell) :
    (queenNeighbor u v ↔ u ≠ v ∧ sharesBoundaryPoint u v) ∧
    (rookNeighbor u v ↔ u ≠ v ∧ sharesBoundarySegment u v) ∧
    (rookNeighbor u v → queenNeighbor u v) := by
  have hne : u ≠ v ↔ ¬(u.1 = v.1 ∧ u.2 = v.2) := by
    constructor
    · intro h hc
      exact h (Prod.ext hc.1 hc.2)
    · intro h hc
      exact h ⟨congrArg Prod.fst hc, congrArg Prod.snd hc⟩
  refine ⟨?_, ?_, ?_⟩
  · rw [sharesBoundaryPoint_iff]
    exact Iff.rfl
  · rw [sharesBoundarySegment_iff, rookNeighbor, hne]
    omega
  · intro h
    rw [rookNeighbor] at h
    refine ⟨hne.mpr (by omega), by omega, by omega⟩

/-- Closed witness for C2's amended characterization at the horizontally
adjacent cells (0,0) and (1,0). -/
theorem c2_contiguity_characterization_witness :
    rookNeighbor (0, 0) (1, 0) ∧ queenNeighbor (0, 0) (1, 0) :=
  ⟨by decide, (c2_contiguity_characterization (0, 0) (1, 0)).2.2 (by decide)⟩

/-! ## k-nearest-neighbor adjacency (spec section 4.1, k-nearest mode) -/

/-- Squared Euclidean distance between two points of an ordered ring;
comparing squared distances preserves the Euclidean-distance order. -/
def sqDist {α : Type} [Ring α] (p q : α × α) : α :=
  (p.1 - q.1) * (p.1 - q.1) + (p.2 - q.2) * (p.2 - q.2)

/-- Insert an index into a list ordered by the given comparison. -/
def insertBy (le : Nat → Nat → Bool) (a : Nat) : List Nat → List Nat
  | [] => [a]
  | b :: l => if le a b then a :: b :: l else b :: insertBy le a l

/-- Sort a list of indices by the given comparison. -/
def sortBy (le : Nat → Nat → Bool) : List Nat → List Nat
  | [] => []
  | a :: l => insertBy le a (sortBy le l)

/-- Modelled from the spec: the k-nearest-neighbor builder for unit i:
every other unit's index, ordered by centroid distance to unit i (ties
broken by index), truncated to the k closest. -/
def knn {α : Type} [LinearOrderedRing α] (pts : List (α × α)) (k i : Nat) :
    List Nat :=
  (sortBy (fun a b =>
      decide (sqDist (pts.getD i (0, 0)) (pts.getD a (0, 0)) <
          sqDist (pts.getD i (0, 0)) (pts.getD b (0, 0)) ∨
        (sqDist (pts.getD i (0, 0)) (pts.getD a (0, 0)) =
          sqDist (pts.getD i (0, 0)) (pts.getD b (0, 0)) ∧ a ≤ b)))
    ((List.range pts.length).filter (fun j => j != i))).take k

theorem length_insertBy (le : Nat → Nat → Bool) (a : Nat) (l : List Nat) :
    (insertBy le a l).length = l.length + 1 := by
  induction l with
  | nil => rfl
  | cons b l ih =>
    by_cases h : le a b = true
    · simp [insertBy, h]
    · simp [insertBy, h, ih]

theorem mem_insertBy (le : Nat → Nat → Bool) (a x : Nat) (l : List Nat) :
    x ∈ insertBy le a l ↔ x = a ∨ x ∈ l := by
  induction l with
  | nil => simp [insertBy]
  | cons b l ih =>
    by_cases h : le a b = true
    · simp [insertBy, h]
    · simp [insertBy, h, ih]
      tauto

theorem length_sortBy (le : Nat → Nat → Bool) (l : List Nat) :
    (sortBy le l).length = l.length := by
  induction l with
  | nil => rfl
  | cons a l ih => simp [sortBy, length_insertBy, ih]

theorem mem_sortBy (le : Nat → Nat → Bool) (x : Nat) (l : List Nat) :
    x ∈ sortBy le l ↔ x ∈ l := by
  induction l with
  | nil => simp [sortBy]
  | cons a l ih => simp [sortBy, mem_insertBy, ih]

theorem length_filter_range (n i : Nat) (h : i < n) :
    ((List.range n).filter (fun j => j != i)).length = n - 1 := by
  induction n with
  | zero => omega
  | succ n ih =>
    rw [List.range_succ, List.filter_append]
    by_cases hc : i = n
    · have hall : (List.range n).filter (fun j => j != i) = List.range n := by
        apply List.filter_eq_self.mpr
        intro j hj
        have hjn : j < n := List.mem_range.mp hj
        simp only [bne_iff_ne, Ne, decide_eq_true_eq]
        omega
      have hlast : [n].filter (fun j => j != i) = [] := by
        simp [List.filter_singleton, hc]
      rw [hall, hlast, List.length_append, List.length_range]
      simp
    · have hi : i < n := by omega
      have hlast : [n].filter (fun j => j != i) = [n] := by
        rw [List.filter_singleton]
        have : (n != i) = true := by
          simp only [bne_iff_ne, Ne, decide_eq_true_eq]
          omega
        simp [this]
      rw [hlast, List.length_append, ih hi]
      simp
      omega

/-- C7: for k at most (number of units − 1), the k-nearest builder yields
exactly k neighbors for every unit, never including the unit itself; and
the relation is not symmetric in general, witnessed by three collinear
centroids where unit 1 is nearest to unit 2 but not conversely. -/
theorem c7_knn_exactly_k {α : Type} [LinearOrderedRing α]
    (pts : List (α × α)) (k i : Nat)
    (hi : i < pts.length) (hk : k ≤ pts.length - 1) :
    ((knn pts k i).length = k ∧ i ∉ knn pts k i) ∧
    (1 ∈ knn [((0 : ℤ), (0 : ℤ)), (1, 0), (3, 0)] 1 2 ∧
      2 ∉ knn [((0 : ℤ), (0 : ℤ)), (1, 0), (3, 0)] 1 1) := by
  refine ⟨⟨?_, ?_⟩, by decide, by decide⟩
  · rw [knn, List.length_take, length_sortBy, length_filter_range _ _ hi]
    omega
  · intro hmem
    have h1 : i ∈ sortBy _ ((List.range pts.length).filter (fun j => j != i)) :=
      List.take_subset _ _ hmem
    have h2 : i ∈ (List.range pts.length).filter (fun j => j != i) :=
      (mem_sortBy _ _ _).mp h1
    have h3 := (List.mem_filter.mp h2).2
    simp at h3

/-- Witness for C7 at three concrete centroids with k = 1 and unit 0. -/
theorem c7_knn_exactly_k_witness :
    0 < 3 ∧ 1 ≤ 3 - 1 ∧
    ((knn [((0 : ℤ), (0 : ℤ)), (1, 0), (3, 0)] 1 0).length = 1 ∧
      0 ∉ knn [((0 : ℤ), (0 : ℤ)), (1, 0), (3, 0)] 1 0) :=
  ⟨by decide, by decide,
    (c7_knn_exactly_k [((0 : ℤ), (0 : ℤ)), (1, 0), (3, 0)] 1 0 (by decide)
      (by decide)).1⟩

/-! ## Determinism of the seeded analysis (spec sections 4.4, 4.5 and the
notebook's single global seed call) -/

/-- Global pseudo-random-generator state, standing for the library's global
generator that the notebook seeds once at the top. -/
structure RngState where
  value : Nat

/-- Modelled from the spec: seeding the generator discards whatever state it
previously had and installs a state derived from the seed only. -/
def seedRng (seed : Nat) (_st : RngState) : RngState := ⟨seed⟩

/-- A linear congruential step: next draw and next state, with explicit
64-bit wraparound. -/
def rngNext (st : RngState) : Nat × RngState :=
  let v := (st.value * 6364136223846793005 + 1442695040888963407) % (2 ^ 64)
  (v, ⟨v⟩)

/-- Draw a random permutation of the list: repeatedly pick a random
remaining element (Fisher–Yates on a list). -/
def permuteGo : Nat → List ℚ → RngState → List ℚ × RngState
  | 0, _, st => ([], st)
  | Nat.succ fuel, rem, st =>
    let (r, st') := rngNext st
    let idx := r % rem.length
    let rest := permuteGo fuel (rem.eraseIdx idx) st'
    (rem.getD idx 0 :: rest.1, rest.2)

/-- One random reassignment of the attribute values across units. -/
def permuteOnce (y : List ℚ) (st : RngState) : List ℚ × RngState :=
  permuteGo y.length y st

/-- Mean of an attribute vector (0 for the empty vector). -/
def meanQ (y : List ℚ) : ℚ := y.sum / (y.length : ℚ)

/-- Modelled from the spec: the global autocorrelation statistic, the
cross-product of standardized value and its spatial lag, normalized by the
sum of all weights and the variance of the input vector. -/
def moranI (w : WeightsMatrix) (y : List ℚ) : ℚ :=
  let m := meanQ y
  let z := y.map (fun v => v - m)
  let lagz := lagSpatial w (fun j => z.getD j 0)
  let s0 := (w.current.map (fun row => (row.map (fun p => p.2)).sum)).sum
  ((y.length : ℚ) / s0) * ((z.zip lagz).map (fun pr => pr.1 * pr.2)).sum /
    (z.map (fun v => v * v)).sum

/-- The permutation test: draw the given number of random reassignments and
compute the statistic of each. -/
def permTest : Nat → List ℚ → WeightsMatrix → RngState → List ℚ × RngState
  | 0, _, _, st => ([], st)
  | Nat.succ k, y, w, st =>
    let (y', st') := permuteOnce y st
    let rest := permTest k y w st'
    (moranI w y' :: rest.1, rest.2)

/-- The whole analysis of the notebook run as one function: build the
weights and row-standardize them, compute the spatial lag, the global
statistic with its 999+1-permutation simulated p-value, and the local
quadrant labels. -/
def runAnalysis (st : RngState) (seed : Nat)
    (orig : List (List (Nat × ℚ))) (y : List ℚ) :
    WeightsMatrix × List ℚ × ℚ × ℚ × List Quadrant :=
  let st0 := seedRng seed st
  let w := setTransform .R ⟨orig, orig, .O⟩
  let lag := lagSpatial w (fun j => y.getD j 0)
  let obs := moranI w y
  let sims := (permTest 999 y w st0).1
  let p := pSim obs sims
  let m := meanQ y
  let mlag := meanQ lag
  let quad := (y.zip lag).map (fun pr =>
    classifyQuadrant (pr.1 - m) (pr.2 - mlag))
  (w, lag, obs, p, quad)

/-- C8: with a fixed random seed the whole analysis (weights construction,
lag, global statistic, simulated p-value, local labels) is deterministic:
two runs on the same input, seeded alike from arbitrary prior generator
states, produce identical results. -/
theorem c8_seeded_analysis_deterministic (st1 st2 : RngState) (s1 s2 : Nat)
    (orig : List (List (Nat × ℚ))) (y : List ℚ) (h : s1 = s2) :
    runAnalysis st1 s1 orig y = runAnalysis st2 s2 orig y := by
  subst h
  rfl

/-- Witness for C8: two seeded runs from different prior generator states
on a concrete input coincide. -/
theorem c8_seeded_analysis_deterministic_witness :
    runAnalysis ⟨7⟩ 42 [[(0, (1 : ℚ))]] [1, 2] =
      runAnalysis ⟨13⟩ 42 [[(0, (1 : ℚ))]] [1, 2] :=
  c8_seeded_analysis_deterministic ⟨7⟩ ⟨13⟩ 42 42 [[(0, (1 : ℚ))]] [1, 2] rfl

/-! ## Geocoding batch (src/unnamed/part_002, geocode) -/

/-- Embedded from the notebook's geocode function: when the API response
carries at least one result, the first result's latitude-longitude pair is
returned; otherwise the function falls through and yields the failure
marker (Python None, here Option.none). -/
def geocode (results : List (ℚ × ℚ)) : Option (ℚ × ℚ) :=
  match results with
  | [] => none
  | r :: _ => some r

/-- Embedded from the notebook: mapping geocode over the address column
annotates every address with the outcome of its own lookup. -/
def batchGeocode {addr : Type} (api : addr → List (ℚ × ℚ))
    (addrs : List addr) : List (addr × Option (ℚ × ℚ)) :=
  addrs.map (fun a => (a, geocode (api a)))

/-- Embedded from the notebook's reverse_geopy: the statement
`address, _ = geolocator.reverse(latlng, exactly_one=True)` unpacks the
geolocator's return value with no failure handling.  On success the
geolocator yields a location (address and point) and the address is
returned; on a non-success response it yields Python None and the
unpacking raises (`Except.error`), with no per-input failure marker. -/
def reverseGeopy {loc pt : Type} (response : Option (loc × pt)) :
    Except Unit loc :=
  match response with
  | some r => Except.ok r.1
  | none => Except.error ()

/-- Embedded from the notebook: points['latlng'].map(reverse_geopy).  An
exception raised for any element propagates out of the map, so the whole
batch aborts and no input is annotated. -/
def batchReverse {addr loc pt : Type} (rapi : addr → Option (loc × pt)) :
    List addr → Except Unit (List (addr × loc))
  | [] => Except.ok []
  | a :: l =>
    match reverseGeopy (rapi a), batchReverse rapi l with
    | Except.ok r, Except.ok rest => Except.ok ((a, r) :: rest)
    | Except.error e, _ => Except.error e
    | _, Except.error e => Except.error e

theorem batchReverse_error_of_mem {addr loc pt : Type}
    (rapi : addr → Option (loc × pt)) (l : List addr)
    (h : ∃ a ∈ l, rapi a = none) : batchReverse rapi l = Except.error () := by
  induction l with
  | nil =>
    rcases h with ⟨a, ha, _⟩
    exact absurd ha (List.not_mem_nil a)
  | cons b l ih =>
    rcases h with ⟨a, ha, hfa⟩
    rcases List.mem_cons.mp ha with h1 | h1
    · have hb : rapi b = none := by
        rw [← h1]
        exact hfa
      simp [batchReverse, reverseGeopy, hb]
    · have ht : batchReverse rapi l = Except.error () := ih ⟨a, h1, hfa⟩
      cases hr : reverseGeopy (rapi b) <;> simp [batchReverse, hr, ht]

/-- C9 counterexample: a batch of two reverse lookups where input 0's
lookup succeeds and input 1's response is non-success.  The embedded batch
aborts with the raised error and yields no annotated output at all — in
particular input 0 ends up with neither a result nor a failure marker, so
the claim that a non-success response never aborts the batch and that
every input is annotated afterwards is false on the reverse-lookup part of
its scope. -/
theorem c9_counterexample_reverse_abort :
    batchReverse
      (fun a : Nat => if a = 0 then some ((5 : Nat), (9 : Nat)) else none)
      [0, 1] = Except.error () ∧
    ∀ rs : List (Nat × Nat),
      batchReverse
        (fun a : Nat => if a = 0 then some ((5 : Nat), (9 : Nat)) else none)
        [0, 1] ≠ Except.ok rs := by
  have h1 : batchReverse
      (fun a : Nat => if a = 0 then some ((5 : Nat), (9 : Nat)) else none)
      [0, 1] = Except.error () := rfl
  refine ⟨h1, fun rs h => ?_⟩
  rw [h1] at h
  exact Except.noConfusion h

/-- C9 amended: in a batch of independent forward geocoding lookups a
non-success response for one input does not abort the batch — every input
appears in the output annotated with either its own coordinate result or
the failure marker, and changing one input's response leaves every other
input's annotation unchanged; the reverse-lookup batch lacks this
handling: any non-success reverse response raises out of the map, aborting
the whole batch with no input annotated. -/
theorem c9_forward_tolerant_reverse_aborts {addr loc pt : Type}
    (api : addr → List (ℚ × ℚ)) (addrs : List addr)
    (rapi : addr → Option (loc × pt)) (inputs : List addr) :
    (batchGeocode api addrs).length = addrs.length ∧
    (∀ a ∈ addrs, (a, geocode (api a)) ∈ batchGeocode api addrs) ∧
    (∀ a, api a = [] → geocode (api a) = none) ∧
    (∀ a r rest, api a = r :: rest → geocode (api a) = some r) ∧
    (∀ (api' : addr → List (ℚ × ℚ)) (bad : addr),
      (∀ a, a ≠ bad → api' a = api a) →
      ∀ a ∈ addrs, a ≠ bad →
        (a, geocode (api a)) ∈ batchGeocode api' addrs) ∧
    ((∃ a ∈ inputs, rapi a = none) →
      batchReverse rapi inputs = Except.error () ∧
      ∀ rs : List (addr × loc), batchReverse rapi inputs ≠ Except.ok rs) := by
  refine ⟨List.length_map addrs _, ?_, ?_, ?_, ?_, ?_⟩
  · intro a ha
    exact List.mem_map.mpr ⟨a, ha, rfl⟩
  · intro a h
    rw [h]
    rfl
  · intro a r rest h
    rw [h]
    rfl
  · intro api' bad hagree a ha hne
    refine List.mem_map.mpr ⟨a, ha, ?_⟩
    rw [hagree a hne]
  · intro hfail
    have herr := batchReverse_error_of_mem rapi inputs hfail
    refine ⟨herr, fun rs h => ?_⟩
    rw [herr] at h
    exact Except.noConfusion h

/-- Witness for C9's amended claim: a two-address forward batch annotates
both addresses although the second lookup fails, while a two-input reverse
batch with one non-success response aborts. -/
theorem c9_forward_tolerant_reverse_aborts_witness :
    (batchGeocode (fun a : Nat => if a = 0 then [((1 : ℚ), (2 : ℚ))] else [])
      [0, 1]).length = 2 ∧
    (0, some ((1 : ℚ), (2 : ℚ))) ∈
      batchGeocode (fun a : Nat => if a = 0 then [((1 : ℚ), (2 : ℚ))] else [])
        [0, 1] ∧
    ((1 : Nat), (none : Option (ℚ × ℚ))) ∈
      batchGeocode (fun a : Nat => if a = 0 then [((1 : ℚ), (2 : ℚ))] else [])
        [0, 1] ∧
    batchReverse
      (fun a : Nat => if a = 0 then some ((7 : Nat), (9 : Nat)) else none)
      [0, 1, 2] = Except.error () := by
  have h := c9_forward_tolerant_reverse_aborts
    (fun a : Nat => if a = 0 then [((1 : ℚ), (2 : ℚ))] else []) [0, 1]
    (fun a : Nat => if a = 0 then some ((7 : Nat), (9 : Nat)) else none)
    [0, 1, 2]
  refine ⟨h.1, ?_, ?_, ?_⟩
  · have hm := h.2.1 0 (by simp)
    simpa [geocode] using hm
  · have hm := h.2.1 1 (by simp)
    simpa [geocode] using hm
  · exact (h.2.2.2.2.2 ⟨1, by simp, by simp⟩).1

/-! ## Paged data download with a shared default accumulator
(src/unnamed/part_002, request_data) -/

/-- One page of an endpoint's rows: limit rows starting at offset. -/
def pageOf (allRows : List Nat) (offset limit : Nat) : List Nat :=
  (allRows.drop offset).take limit

/-- Embedded from the notebook's request_data: append the fetched page to
the accumulator and keep requesting further pages while they come back
full; fuel bounds the recursion (any fuel beyond the row count is enough
for positive limit). -/
def requestData (fuel : Nat) (allRows : List Nat) (limit offset : Nat)
    (data : List Nat) : List Nat :=
  match fuel with
  | 0 => data
  | Nat.succ fuel =>
    let rows := pageOf allRows offset limit
    let grown := data ++ rows
    if limit ≤ rows.length then
      requestData fuel allRows limit (offset + limit) grown
    else grown

/-- Embedded from the notebook: two successive top-level calls that leave
the data parameter at its default.  Python evaluates the default list [] a
single time at function definition; data.extend mutates that list in place
and the function returns the same object, so the second call's accumulator
starts as the first call's result instead of as []. -/
def twoCallsSharedDefault (epA epB : List Nat) (limit : Nat) :
    List Nat × List Nat :=
  let firstResult := requestData (epA.length + 1) epA limit 0 []
  let secondResult := requestData (epB.length + 1) epB limit 0 firstResult
  (firstResult, secondResult)

/-- C10: evaluating request_data at the failing input: endpoint A serves
the single row 10, endpoint B the single row 20, the default limit is
1000.  A fresh call on endpoint B alone returns [20], but the second of
two successive default-argument calls returns [10, 20] — the rows of the
earlier call leak into it, so the calls are not independent. -/
theorem c10_request_data_shared_default :
    twoCallsSharedDefault [10] [20] 1000 = ([10], [10, 20]) ∧
    requestData ([20].length + 1) [20] 1000 0 [] = [20] ∧
    (twoCallsSharedDefault [10] [20] 1000).2 ≠
      requestData ([20].length + 1) [20] 1000 0 [] := by
  refine ⟨rfl, rfl, ?_⟩
  decide

end Asa
